import Mathlib

/-
Verification of the Incucyte timecourse plotter core
(src/incucyte_plotter_app.py) against its specification.

Embedding choices:
* A raw CSV table is a header row of column names plus rows of cells; a cell
  is the text of the field, or missing (modelling NaN produced by read_csv
  for empty fields).  Numeric values are modelled by the rationals, so that
  the arithmetic of the pipeline (numeric parsing, floor binning, mean and
  sample variance) is exact.
* pandas to_numeric with coerce errors is modelled by a decimal-literal
  parser returning an optional rational; astype(str) on a missing value
  yields the text nan, as in pandas.
* The two regular expressions of the source, the number extractor
  pattern [0-9]*\.?[0-9]+ used by the time coercion and the replicate
  suffix pattern (.*)_(R\d+|Rep\d+|rep\d+) used both by str.extract in the
  wide path and by re.match in the base-name helper, are implemented as
  executable functions on character lists with the leftmost-then-greedy
  semantics of the Python re engine.
* The standard deviation column produced by DataFrame.std is the square
  root of the sample variance; records here carry the (rational) sample
  variance in the field sampleVar, so sd = Real.sqrt of sampleVar, and sd
  is null exactly when sampleVar is none.
* aggregate_mean_sd copies its input frame before adding the helper
  time_bin column; the embedding returns the post-call state of the input
  frame as the first component of the result, so frame conditions are
  statable.
-/

namespace Incucyte

/-- A cell of the raw CSV table: missing, or the text of the field. -/
abbrev Cell := Option String

/-- String form of a cell as produced by astype(str): a missing value
prints as the text nan, as in pandas. -/
def cellStr : Cell → String
  | none => "nan"
  | some s => s

/-- Numeric value of a digit list read in base 10. -/
def digitsVal (ds : List Char) : ℕ :=
  ds.foldl (fun a c => 10 * a + (c.toNat - 48)) 0

/-- Parse an optionally signed nonempty digit string into an integer. -/
def parseSignedDigits : List Char → Option ℤ
  | '+' :: ds => if ds ≠ [] ∧ ds.all Char.isDigit then some (digitsVal ds) else none
  | '-' :: ds => if ds ≠ [] ∧ ds.all Char.isDigit then some (-(digitsVal ds : ℤ)) else none
  | ds => if ds ≠ [] ∧ ds.all Char.isDigit then some (digitsVal ds) else none

/-- Exponent suffix of a float literal: nothing, or the letter e or E
followed by a signed digit string.  Fails on any other trailing text. -/
def parseExpPart : List Char → Option ℤ
  | [] => some 0
  | 'e' :: rest => parseSignedDigits rest
  | 'E' :: rest => parseSignedDigits rest
  | _ => none

/-- Unsigned float literal: digits with an optional fractional part, or a
bare fractional part, with an optional exponent; the shapes accepted by the
numeric parser behind pandas to_numeric. -/
def parseUnsigned (cs : List Char) : Option ℚ :=
  let d1 := cs.takeWhile Char.isDigit
  let r1 := cs.dropWhile Char.isDigit
  match r1 with
  | '.' :: r2 =>
    let d2 := r2.takeWhile Char.isDigit
    let r3 := r2.dropWhile Char.isDigit
    if d1.isEmpty && d2.isEmpty then none
    else (parseExpPart r3).map (fun e =>
      ((digitsVal d1 : ℚ) + (digitsVal d2 : ℚ) / (10 : ℚ) ^ d2.length) * (10 : ℚ) ^ e)
  | _ =>
    if d1.isEmpty then none
    else (parseExpPart r1).map (fun e => (digitsVal d1 : ℚ) * (10 : ℚ) ^ e)

/-- Strip whitespace from both ends of a character list. -/
def trimChars (cs : List Char) : List Char :=
  ((cs.dropWhile Char.isWhitespace).reverse.dropWhile Char.isWhitespace).reverse

/-- Model of pandas to_numeric with coerce errors on one string,
restricted to the finite values: an optionally signed float literal
surrounded by whitespace, or failure.  The refinement parseNumX below
extends it with the non-finite doubles (infinity words and overflowing
literals) that to_numeric also resolves. -/
def parseNum (cs : List Char) : Option ℚ :=
  match trimChars cs with
  | '+' :: rest => parseUnsigned rest
  | '-' :: rest => (parseUnsigned rest).map Neg.neg
  | rest => parseUnsigned rest

/-- Model of pandas to_numeric with coerce errors on one cell. -/
def toNumericCell : Cell → Option ℚ
  | none => none
  | some s => parseNum s.data

/-- Match of the pattern [0-9]*\.?[0-9]+ anchored at the head of the list,
with the greedy backtracking semantics of the Python re engine: a maximal
digit run, optionally extended by a point and a second maximal digit run. -/
def matchNumAt (cs : List Char) : Option (List Char) :=
  let d1 := cs.takeWhile Char.isDigit
  let r1 := cs.dropWhile Char.isDigit
  if d1.isEmpty then
    match r1 with
    | '.' :: r2 =>
      let d2 := r2.takeWhile Char.isDigit
      if d2.isEmpty then none else some ('.' :: d2)
    | _ => none
  else
    match r1 with
    | '.' :: r2 =>
      let d2 := r2.takeWhile Char.isDigit
      if d2.isEmpty then some d1 else some (d1 ++ '.' :: d2)
    | _ => some d1

/-- First (leftmost) match of the pattern [0-9]*\.?[0-9]+ in the list, as
found by str.extract in the source. -/
def extractFirst : List Char → Option (List Char)
  | [] => none
  | c :: cs =>
    match matchNumAt (c :: cs) with
    | some f => some f
    | none => extractFirst cs

/-- Embedding of the helper coerce_time of the source: try a direct
numeric parse of every value; if all succeed return that column, otherwise
extract the first decimal-number substring from the string form of every
value and parse the extracted fragment. -/
def coerce_time (col : List Cell) : List (Option ℚ) :=
  let c := col.map toNumericCell
  if c.all Option.isSome then c
  else col.map (fun x =>
    match extractFirst (cellStr x).data with
    | some f => parseNum f
    | none => none)

/-- A nonempty all-digit character list. -/
def isDigitsB (ds : List Char) : Bool :=
  decide (ds ≠ []) && ds.all Char.isDigit

/-- The replicate tag alternation of the source regex: R, Rep or rep
followed by one or more digits (case sensitive on the literal prefixes). -/
def isRepTag (t : List Char) : Bool :=
  (decide (t.take 1 = ['R']) && isDigitsB (t.drop 1)) ||
  (decide (t.take 3 = ['R', 'e', 'p']) && isDigitsB (t.drop 3)) ||
  (decide (t.take 3 = ['r', 'e', 'p']) && isDigitsB (t.drop 3))

/-- Embedding of the replicate suffix regex (.*)_(R\d+|Rep\d+|rep\d+)
anchored at both ends, used both by the base-name helper and by
str.extract in the wide path.  The greedy leading group makes the engine
pick the rightmost underscore whose suffix is a replicate tag; since a tag
contains no underscore that split is unique.  Returns base and tag. -/
def splitRep : List Char → Option (List Char × List Char)
  | [] => none
  | c :: cs =>
    match splitRep cs with
    | some (b, t) => some (c :: b, t)
    | none => if c = '_' && isRepTag cs then some ([], cs) else none

/-- Embedding of the helper base_group_name of the source: strip a
replicate suffix if one is present. -/
def base_group_name (s : String) : String :=
  match splitRep s.data with
  | some (b, _) => String.mk b
  | none => s

/-- The replicate suffix resolver of the specification: base name together
with the optional replicate tag. -/
def resolveReplicate (s : String) : String × Option String :=
  match splitRep s.data with
  | some (b, t) => (String.mk b, some (String.mk t))
  | none => (s, none)

/-- A raw table as produced by read_csv: named columns and rows of cells. -/
structure RawTable where
  header : List String
  rows : List (List Cell)
deriving DecidableEq

/-- One record of the canonical tidy table. -/
structure TidyRecord where
  time : ℚ
  group : String
  replicate : String
  value : ℚ
deriving DecidableEq

/-- The canonical tidy table; groupCats holds the ordered category list of
the group column when it is categorical (the wide path), and is none when
the group column is a plain string column (the tidy path). -/
structure TidyTable where
  records : List TidyRecord
  groupCats : Option (List String)
deriving DecidableEq

/-- Lowercasing of a column name, performed character by character as by
the str.lower call of the source. -/
def lowerStr (s : String) : String :=
  String.mk (s.data.map Char.toLower)

/-- Is a column with the given lowercase name present (case-insensitive
membership in the header)? -/
def hasLower (h : List String) (l : String) : Bool :=
  h.any (fun c => lowerStr c = l)

/-- The original column name for a lowercase name, as given by the
lower_map dictionary of the source (a later duplicate overwrites an
earlier one, so the last matching column wins). -/
def lowerLookup (h : List String) (l : String) : Option String :=
  (h.filter (fun c => lowerStr c = l)).getLast?

/-- Index of the first column with the given exact name. -/
def idxOfName : List String → String → ℕ
  | [], _ => 0
  | c :: cs, n => if c = n then 0 else idxOfName cs n + 1

/-- First-occurrence deduplication, as computed by the group-order loop of
the source (append each item unless already seen). -/
def dedupFirst {α : Type} [DecidableEq α] (l : List α) : List α :=
  l.foldl (fun acc x => if x ∈ acc then acc else acc ++ [x]) []

/-- The wide-format detection condition of the source: a time column
exists and the triple group, replicate, value is not fully present. -/
def wideCondB (h : List String) : Bool :=
  hasLower h "time" && !(hasLower h "group" && hasLower h "replicate" && hasLower h "value")

/-- The tidy-format detection condition of the source: time, group and
value are all present. -/
def tidyCondB (h : List String) : Bool :=
  hasLower h "time" && hasLower h "group" && hasLower h "value"

/-- The format-detection error text raised by the source. -/
def formatErrorMsg : String :=
  "Could not detect wide or tidy format. Need either:\n  Wide: \x27time\x27 + one column per group\n  Tidy: time, group, (replicate), value"

/-- Melt (unpivot) of the wide frame: for each series column in original
left-to-right order, one entry per row carrying the time cell, the series
column name, and the value cell; column-major order as produced by
DataFrame.melt. -/
def meltWide (tbl : RawTable) (timeCol : String) (valueCols : List String) :
    List (Cell × String × Cell) :=
  valueCols.flatMap (fun c =>
    tbl.rows.map (fun r =>
      (r.getD (idxOfName tbl.header timeCol) none, c, r.getD (idxOfName tbl.header c) none)))

/-- Per-entry replicate resolution of the wide path: where the series
column name matches the replicate suffix pattern take base and tag,
otherwise the full column name and the sentinel R1. -/
def wideGR : Cell × String × Cell → Cell × String × String × Cell
  | (tc, c, vc) =>
    match splitRep c.data with
    | some (b, t) => (tc, String.mk b, String.mk t, vc)
    | none => (tc, c, "R1", vc)

/-- Final record assembly of the wide path: keep an entry only when both
its coerced time and its parsed value resolved. -/
def wideResolve : Option ℚ × (Cell × String × String × Cell) → Option TidyRecord
  | (some t, (_, g, rep, vc)) =>
    match toNumericCell vc with
    | some v => some ⟨t, g, rep, v⟩
    | none => none
  | (none, _) => none

/-- The time column of the wide path, as recovered through lower_map. -/
def wideTimeCol (tbl : RawTable) : String :=
  (lowerLookup tbl.header "time").getD ""

/-- The series columns of the wide path: every column other than the time
column, in original left-to-right order. -/
def wideValueCols (tbl : RawTable) : List String :=
  tbl.header.filter (fun c => decide (c ≠ wideTimeCol tbl))

/-- The melted entries of the wide path after per-entry replicate
resolution: time cell, group, replicate, value cell. -/
def wideEntries (tbl : RawTable) : List (Cell × String × String × Cell) :=
  (meltWide tbl (wideTimeCol tbl) (wideValueCols tbl)).map wideGR

/-- The coerced melted time column of the wide path. -/
def wideCoerced (tbl : RawTable) : List (Option ℚ) :=
  coerce_time ((wideEntries tbl).map (fun x => x.1))

/-- Wide normalization of the source: melt the series columns, resolve
replicate suffixes per entry, coerce the melted time column, parse values,
drop unresolved entries, and record the first-occurrence base-name order
as the ordered categories of the group column. -/
def wideNormalize (tbl : RawTable) : TidyTable :=
  ⟨((wideCoerced tbl).zip (wideEntries tbl)).filterMap wideResolve,
   some (dedupFirst ((wideValueCols tbl).map base_group_name))⟩

/-- Final record assembly of the tidy path: keep a row only when both its
coerced time and its parsed value resolved; group and replicate are the
string forms of their cells, with the sentinel R1 when no replicate column
exists. -/
def tidyResolve (gi ri vi : ℕ) (hasRep : Bool) :
    Option ℚ × List Cell → Option TidyRecord
  | (some t, r) =>
    match toNumericCell (r.getD vi none) with
    | some v =>
      some ⟨t, cellStr (r.getD gi none),
            if hasRep then cellStr (r.getD ri none) else "R1", v⟩
    | none => none
  | (none, _) => none

/-- Row index of the canonical time column of the tidy path. -/
def tidyTimeIdx (tbl : RawTable) : ℕ :=
  idxOfName tbl.header ((lowerLookup tbl.header "time").getD "")

/-- Row index of the canonical group column of the tidy path. -/
def tidyGroupIdx (tbl : RawTable) : ℕ :=
  idxOfName tbl.header ((lowerLookup tbl.header "group").getD "")

/-- Row index of the canonical value column of the tidy path. -/
def tidyValueIdx (tbl : RawTable) : ℕ :=
  idxOfName tbl.header ((lowerLookup tbl.header "value").getD "")

/-- Row index of the replicate column of the tidy path, when present. -/
def tidyRepIdx (tbl : RawTable) : ℕ :=
  idxOfName tbl.header ((lowerLookup tbl.header "replicate").getD "")

/-- The coerced time column of the tidy path. -/
def tidyCoerced (tbl : RawTable) : List (Option ℚ) :=
  coerce_time (tbl.rows.map (fun r => r.getD (tidyTimeIdx tbl) none))

/-- Tidy normalization of the source: canonicalize the matched columns,
coerce the time column, parse values, string-coerce group and replicate
(synthesizing the sentinel when no replicate column exists), and drop
unresolved rows.  The group column stays a plain string column. -/
def tidyNormalize (tbl : RawTable) : TidyTable :=
  ⟨((tidyCoerced tbl).zip tbl.rows).filterMap
     (tidyResolve (tidyGroupIdx tbl) (tidyRepIdx tbl) (tidyValueIdx tbl)
       (hasLower tbl.header "replicate")),
   none⟩

/-- Embedding of read_incucyte_csv: classify the raw table and normalize,
or fail with the format-detection error. -/
def read_incucyte_csv (tbl : RawTable) : Except String TidyTable :=
  if wideCondB tbl.header then Except.ok (wideNormalize tbl)
  else if tidyCondB tbl.header then Except.ok (tidyNormalize tbl)
  else Except.error formatErrorMsg

/-- One row of the aggregated stats table.  The std column of the source
is the square root of sampleVar; it is null exactly when sampleVar is
none, so sampleVar faithfully represents it over the rationals. -/
structure StatsRecord where
  group : String
  time : ℚ
  mean : ℚ
  sampleVar : Option ℚ
  n : ℕ
deriving DecidableEq

/-- The tidy frame as passed to the aggregator, together with the helper
time_bin column that the aggregator may add to its working copy. -/
structure WorkTable where
  base : TidyTable
  time_bin : Option (List ℚ)
deriving DecidableEq

/-- The time_bin column added by the aggregator: floor of time over the
interval, times the interval. -/
def timeBinCol (records : List TidyRecord) (h : ℚ) : List ℚ :=
  records.map (fun r => (⌊r.time / h⌋ : ℚ) * h)

/-- The values of the keyed list that fall under one grouping key. -/
def keyedVals (keyed : List ((String × ℚ) × ℚ)) (k : String × ℚ) : List ℚ :=
  (keyed.filter (fun p => decide (p.1 = k))).map (fun p => p.2)

/-- Mean, sample variance and count of the values grouped under one key,
as computed by the mean, std and count aggregations of the source (std
with one contributing value is null). -/
def statsOfKeyed (keyed : List ((String × ℚ) × ℚ)) (k : String × ℚ) : StatsRecord :=
  let vals := keyedVals keyed k
  let n := vals.length
  let m := vals.sum / (n : ℚ)
  ⟨k.1, k.2, m,
   if n ≤ 1 then none
   else some ((vals.map (fun v => (v - m) ^ 2)).sum / ((n : ℚ) - 1)), n⟩

/-- Group records by the pair of group name and the given per-record time
key, one stats row per distinct key in order of first appearance. -/
def aggCore (records : List TidyRecord) (times : List ℚ) : List StatsRecord :=
  let keyed := (records.zip times).map (fun p => ((p.1.group, p.2), p.1.value))
  (dedupFirst (keyed.map (fun p => p.1))).map (statsOfKeyed keyed)

/-- Embedding of aggregate_mean_sd.  The function works on a copy of the
input frame (adding the time_bin column to the copy when a positive
interval is given) and the first component of the result is the input
frame as the caller sees it after the call. -/
def aggregate_mean_sd (df : WorkTable) (interval_hours : Option ℚ) :
    WorkTable × List StatsRecord :=
  match interval_hours with
  | some h =>
    if 0 < h then
      let d : WorkTable := { df with time_bin := some (timeBinCol df.base.records h) }
      (df, aggCore d.base.records (d.time_bin.getD []))
    else
      (df, aggCore df.base.records (df.base.records.map TidyRecord.time))
  | none => (df, aggCore df.base.records (df.base.records.map TidyRecord.time))

/-- The time key used by the aggregator for a given interval setting:
the floor bucket when a positive interval is given, the raw time
otherwise. -/
def bucketOf (interval_hours : Option ℚ) (t : ℚ) : ℚ :=
  match interval_hours with
  | some h => if 0 < h then (⌊t / h⌋ : ℚ) * h else t
  | none => t

/-- The values contributed to one grouping key: the value fields of the
records whose group and bucketed time form that key. -/
def groupValues (records : List TidyRecord) (iv : Option ℚ) (k : String × ℚ) : List ℚ :=
  (records.filter (fun x => decide ((x.group, bucketOf iv x.time) = k))).map TidyRecord.value

/-- A numeric value as pandas stores it in a float column: an exact
finite value, or one of the two infinities.  Missing (NaN) stays at the
Option level, because dropna and notna treat NaN as missing but keep the
infinities.  This extended domain refines the finite-only rationals used
above: the pandas numeric parser also resolves infinity words and
overflowing literals to non-missing infinite floats. -/
inductive XNum where
  | fin (q : ℚ)
  | pinf
  | ninf
deriving DecidableEq

/-- Is the value finite? -/
def XNum.isFinite : XNum → Bool
  | XNum.fin _ => true
  | _ => false

/-- The case-insensitive infinity words accepted by the pandas numeric
parser: inf and infinity. -/
def isInfWord (cs : List Char) : Bool :=
  decide (cs.map Char.toLower = ['i', 'n', 'f']) ||
  decide (cs.map Char.toLower = ['i', 'n', 'f', 'i', 'n', 'i', 't', 'y'])

/-- The magnitude at which a parsed decimal literal rounds to infinity in
double precision under round-to-nearest-even: two to the 1024 minus two
to the 970 (the midpoint between the largest finite double and the first
power of two beyond it).  Written with stacked powers so that it
evaluates by literal folding; the theorem floatOverflowBound_eq below
certifies the decomposition. -/
def floatOverflowBound : ℚ :=
  ((((2 : ℕ) ^ 128) ^ 8 - ((2 : ℕ) ^ 97) ^ 10 : ℕ) : ℚ)

/-- Read an exactly parsed value as a double: a literal at or beyond the
overflow bound becomes the corresponding infinity, every other value is
kept exact. -/
def XNum.ofRat (q : ℚ) : XNum :=
  if floatOverflowBound ≤ q then XNum.pinf
  else if q ≤ -floatOverflowBound then XNum.ninf
  else XNum.fin q

/-- Refinement of parseNum with the non-finite doubles that pandas
to_numeric also resolves: the optionally signed infinity words, and
finite-syntax literals whose value overflows double precision. -/
def parseNumX (cs : List Char) : Option XNum :=
  match trimChars cs with
  | '+' :: rest =>
    if isInfWord rest then some XNum.pinf
    else (parseUnsigned rest).map XNum.ofRat
  | '-' :: rest =>
    if isInfWord rest then some XNum.ninf
    else (parseUnsigned rest).map (fun q => XNum.ofRat (-q))
  | rest =>
    if isInfWord rest then some XNum.pinf
    else (parseUnsigned rest).map XNum.ofRat

/-- Refinement of toNumericCell over the extended numeric domain. -/
def toNumericCellX : Cell → Option XNum
  | none => none
  | some s => parseNumX s.data

/-- Refinement of coerce_time over the extended numeric domain: the
structure of the source helper is unchanged, only the per-value parser
is refined.  An infinity counts as a successful parse on the direct
pass, since it is not missing; on the fallback pass the extraction
regex finds no digits in an infinity word, so such a value becomes
missing there. -/
def coerce_timeX (col : List Cell) : List (Option XNum) :=
  let c := col.map toNumericCellX
  if c.all Option.isSome then c
  else col.map (fun x =>
    match extractFirst (cellStr x).data with
    | some f => parseNumX f
    | none => none)

/-- A tidy record over the extended numeric domain. -/
structure XTidyRecord where
  time : XNum
  group : String
  replicate : String
  value : XNum
deriving DecidableEq

/-- The coerced time column of the tidy path, extended domain. -/
def tidyCoercedX (tbl : RawTable) : List (Option XNum) :=
  coerce_timeX (tbl.rows.map (fun r => r.getD (tidyTimeIdx tbl) none))

/-- Record assembly of the tidy path over the extended domain.  The drop
test is the same dropna on time and value: a row is kept exactly when
both resolutions are not missing, finite or not. -/
def tidyResolveX (gi ri vi : ℕ) (hasRep : Bool) :
    Option XNum × List Cell → Option XTidyRecord
  | (some t, r) =>
    match toNumericCellX (r.getD vi none) with
    | some v =>
      some ⟨t, cellStr (r.getD gi none),
            if hasRep then cellStr (r.getD ri none) else "R1", v⟩
    | none => none
  | (none, _) => none

/-- Records of tidy normalization over the extended domain.  The group
and replicate columns and their ordering are exactly as in
tidyNormalize; they do not depend on the numeric refinement. -/
def tidyNormalizeX (tbl : RawTable) : List XTidyRecord :=
  ((tidyCoercedX tbl).zip tbl.rows).filterMap
    (tidyResolveX (tidyGroupIdx tbl) (tidyRepIdx tbl) (tidyValueIdx tbl)
      (hasLower tbl.header "replicate"))

/-- The coerced melted time column of the wide path, extended domain. -/
def wideCoercedX (tbl : RawTable) : List (Option XNum) :=
  coerce_timeX ((wideEntries tbl).map (fun x => x.1))

/-- Record assembly of the wide path over the extended domain. -/
def wideResolveX : Option XNum × (Cell × String × String × Cell) → Option XTidyRecord
  | (some t, (_, g, rep, vc)) =>
    match toNumericCellX vc with
    | some v => some ⟨t, g, rep, v⟩
    | none => none
  | (none, _) => none

/-- Records of wide normalization over the extended domain.  The ordered
group categories are exactly as in wideNormalize and independent of the
numeric refinement. -/
def wideNormalizeX (tbl : RawTable) : List XTidyRecord :=
  ((wideCoercedX tbl).zip (wideEntries tbl)).filterMap wideResolveX

/-- The reader over the extended numeric domain: detection is unchanged,
the two normalizers carry the refined number parser. -/
def read_incucyte_csvX (tbl : RawTable) : Except String (List XTidyRecord) :=
  if wideCondB tbl.header then Except.ok (wideNormalizeX tbl)
  else if tidyCondB tbl.header then Except.ok (tidyNormalizeX tbl)
  else Except.error formatErrorMsg

/-- Membership in the first-occurrence deduplication fold, generalized
over the accumulator. -/
theorem mem_dedup_foldl {α : Type} [DecidableEq α] (l : List α) :
    ∀ (acc : List α) (x : α),
      x ∈ l.foldl (fun a y => if y ∈ a then a else a ++ [y]) acc ↔ x ∈ acc ∨ x ∈ l := by
  induction l with
  | nil => intro acc x; simp
  | cons y l ih =>
    intro acc x
    rw [List.foldl_cons]
    by_cases hy : y ∈ acc
    · rw [if_pos hy, ih]
      constructor
      · rintro (h | h)
        · exact Or.inl h
        · exact Or.inr (List.mem_cons_of_mem y h)
      · rintro (h | h)
        · exact Or.inl h
        · rcases List.mem_cons.1 h with rfl | h
          · exact Or.inl hy
          · exact Or.inr h
    · rw [if_neg hy, ih]
      simp only [List.mem_append, List.mem_singleton, List.mem_cons]
      tauto

/-- An element is in the deduplicated list exactly when it is in the
original list. -/
theorem mem_dedupFirst {α : Type} [DecidableEq α] (l : List α) (x : α) :
    x ∈ dedupFirst l ↔ x ∈ l := by
  rw [dedupFirst, mem_dedup_foldl]
  simp

/-- The first-occurrence deduplication fold preserves having no
duplicates, generalized over the accumulator. -/
theorem nodup_dedup_foldl {α : Type} [DecidableEq α] (l : List α) :
    ∀ acc : List α, acc.Nodup →
      (l.foldl (fun a y => if y ∈ a then a else a ++ [y]) acc).Nodup := by
  induction l with
  | nil => intro acc h; simpa using h
  | cons y l ih =>
    intro acc h
    rw [List.foldl_cons]
    by_cases hy : y ∈ acc
    · rw [if_pos hy]; exact ih acc h
    · rw [if_neg hy]
      refine ih _ ?_
      simp [List.nodup_append, h, hy]

/-- The deduplicated list has no duplicates. -/
theorem nodup_dedupFirst {α : Type} [DecidableEq α] (l : List α) :
    (dedupFirst l).Nodup :=
  nodup_dedup_foldl l [] List.nodup_nil

/-- Any split found by the replicate regex really decomposes the input as
base, underscore, tag, with the tag of replicate shape. -/
theorem splitRep_eq_some :
    ∀ (cs b t : List Char), splitRep cs = some (b, t) →
      cs = b ++ '_' :: t ∧ isRepTag t = true := by
  intro cs
  induction cs with
  | nil => intro b t h; simp [splitRep] at h
  | cons c cs ih =>
    intro b t h
    rw [splitRep] at h
    cases hs : splitRep cs with
    | some p =>
      obtain ⟨b', t'⟩ := p
      rw [hs] at h
      simp only [Option.some.injEq, Prod.mk.injEq] at h
      obtain ⟨hb, ht⟩ := h
      obtain ⟨h1, h2⟩ := ih b' t' hs
      subst hb; subst ht
      exact ⟨by rw [List.cons_append, ← h1], h2⟩
    | none =>
      rw [hs] at h
      dsimp only at h
      by_cases hc : (c = '_' && isRepTag cs) = true
      · rw [if_pos hc] at h
        simp only [Option.some.injEq, Prod.mk.injEq] at h
        obtain ⟨hb, ht⟩ := h
        obtain ⟨hc1', hc2⟩ : c = '_' ∧ isRepTag cs = true := by simpa using hc
        subst hb; subst ht
        exact ⟨by simp [hc1'], hc2⟩
      · rw [if_neg hc] at h
        exact absurd h (by simp)

/-- Any list of the shape base, underscore, replicate tag is split by the
replicate regex. -/
theorem splitRep_append_isSome :
    ∀ (b t : List Char), isRepTag t = true →
      (splitRep (b ++ '_' :: t)).isSome = true := by
  intro b
  induction b with
  | nil =>
    intro t ht
    rw [List.nil_append, splitRep]
    cases hs : splitRep t with
    | some p => obtain ⟨b', t'⟩ := p; simp
    | none => simp [ht]
  | cons c b ih =>
    intro t ht
    rw [List.cons_append, splitRep]
    cases hs : splitRep (b ++ '_' :: t) with
    | some p => obtain ⟨b', t'⟩ := p; simp
    | none =>
      exfalso
      have h2 := ih t ht
      rw [hs] at h2
      simp at h2

/-- A list whose first element is pinned by take 1. -/
theorem take_one_shape {t : List Char} {a : Char} (h : t.take 1 = [a]) :
    t = a :: t.drop 1 := by
  cases t with
  | nil => simp at h
  | cons x t1 =>
    simp only [List.take_succ_cons, List.take_zero] at h
    obtain ⟨rfl, -⟩ := List.cons.injEq .. ▸ h
    simp

/-- A list whose first three elements are pinned by take 3. -/
theorem take_three_shape {t : List Char} {a b c : Char} (h : t.take 3 = [a, b, c]) :
    t = a :: b :: c :: t.drop 3 := by
  cases t with
  | nil => simp at h
  | cons x t1 =>
    cases t1 with
    | nil => simp at h
    | cons y t2 =>
      cases t2 with
      | nil => simp at h
      | cons z t3 =>
        simp only [List.take_succ_cons, List.take_zero] at h
        obtain ⟨rfl, rfl, rfl, -⟩ := by simpa using h
        simp

/-- The replicate tag test accepts exactly the strings of the regex
alternation: R, Rep or rep followed by one or more digits. -/
theorem isRepTag_iff (t : List Char) :
    isRepTag t = true ↔
      ∃ ds : List Char, ds ≠ [] ∧ ds.all Char.isDigit = true ∧
        (t = 'R' :: ds ∨ t = 'R' :: 'e' :: 'p' :: ds ∨ t = 'r' :: 'e' :: 'p' :: ds) := by
  constructor
  · intro h
    simp only [isRepTag, isDigitsB, Bool.or_eq_true, Bool.and_eq_true,
      decide_eq_true_eq] at h
    rcases h with (⟨h1, h2, h3⟩ | ⟨h1, h2, h3⟩) | ⟨h1, h2, h3⟩
    · exact ⟨t.drop 1, h2, h3, Or.inl (take_one_shape h1)⟩
    · exact ⟨t.drop 3, h2, h3, Or.inr (Or.inl (take_three_shape h1))⟩
    · exact ⟨t.drop 3, h2, h3, Or.inr (Or.inr (take_three_shape h1))⟩
  · rintro ⟨ds, hne, hall, rfl | rfl | rfl⟩ <;>
      simp [isRepTag, isDigitsB, hne, hall]

/-- The all test on a mapped list, as a test on the original list. -/
theorem all_map_comp {α β : Type} (l : List α) (f : α → β) (p : β → Bool) :
    (l.map f).all p = l.all (fun a => p (f a)) := by
  induction l with
  | nil => rfl
  | cons a l ih => simp [ih]

/-- The length of a filterMap counts the elements on which the function
succeeds. -/
theorem length_filterMap_count {α β : Type} (f : α → Option β) (l : List α) :
    (l.filterMap f).length = l.countP (fun a => (f a).isSome) := by
  induction l with
  | nil => rfl
  | cons a l ih =>
    cases hf : f a <;>
      simp [List.filterMap_cons, hf, List.countP_cons, ih]

/-- The stacked-power form of the overflow bound equals two to the 1024
minus two to the 970. -/
theorem floatOverflowBound_eq :
    floatOverflowBound = ((2 : ℚ) ^ (1024 : ℕ) - 2 ^ (970 : ℕ)) := by
  norm_num [floatOverflowBound]

/-- The extended tidy-path record assembly succeeds exactly when both
the coerced time and the parsed value of the row are not missing. -/
theorem tidyResolveX_isSome (gi ri vi : ℕ) (b : Bool) (p : Option XNum × List Cell) :
    (tidyResolveX gi ri vi b p).isSome =
      (p.1.isSome && (toNumericCellX (p.2.getD vi none)).isSome) := by
  obtain ⟨t?, r⟩ := p
  cases t? with
  | none => rfl
  | some t =>
    simp only [tidyResolveX]
    cases toNumericCellX (r.getD vi none) <;> simp

/-- The extended wide-path record assembly succeeds exactly when both
the coerced time and the parsed value of the entry are not missing. -/
theorem wideResolveX_isSome (p : Option XNum × (Cell × String × String × Cell)) :
    (wideResolveX p).isSome = (p.1.isSome && (toNumericCellX p.2.2.2.2).isSome) := by
  obtain ⟨t?, tc, g, rep, vc⟩ := p
  cases t? with
  | none => rfl
  | some t =>
    simp only [wideResolveX]
    cases toNumericCellX vc <;> simp

/-- The tidy-path record assembly succeeds exactly when both the coerced
time and the parsed value of the row resolved. -/
theorem tidyResolve_isSome (gi ri vi : ℕ) (b : Bool) (p : Option ℚ × List Cell) :
    (tidyResolve gi ri vi b p).isSome =
      (p.1.isSome && (toNumericCell (p.2.getD vi none)).isSome) := by
  obtain ⟨t?, r⟩ := p
  cases t? with
  | none => rfl
  | some t =>
    simp only [tidyResolve]
    cases toNumericCell (r.getD vi none) <;> simp

/-- The wide-path record assembly succeeds exactly when both the coerced
time and the parsed value of the entry resolved. -/
theorem wideResolve_isSome (p : Option ℚ × (Cell × String × String × Cell)) :
    (wideResolve p).isSome = (p.1.isSome && (toNumericCell p.2.2.2.2).isSome) := by
  obtain ⟨t?, tc, g, rep, vc⟩ := p
  cases t? with
  | none => rfl
  | some t =>
    simp only [wideResolve]
    cases toNumericCell vc <;> simp

/-- The group column of the tidy-path output is the group cell text of
exactly the rows that survive coercion, in order. -/
theorem tidy_group_map (gi ri vi : ℕ) (b : Bool) (l : List (Option ℚ × List Cell)) :
    ((l.filterMap (tidyResolve gi ri vi b)).map TidyRecord.group) =
      ((l.filter (fun p => p.1.isSome && (toNumericCell (p.2.getD vi none)).isSome)).map
        (fun p => cellStr (p.2.getD gi none))) := by
  induction l with
  | nil => rfl
  | cons p l ih =>
    obtain ⟨t?, r⟩ := p
    rw [List.filterMap_cons, List.filter_cons]
    cases t? with
    | none => simpa [tidyResolve] using ih
    | some t =>
      simp only [tidyResolve]
      cases toNumericCell (r.getD vi none) with
      | none => simpa using ih
      | some v => simpa using ih

/-- Case-insensitive column presence as an existential over the header. -/
theorem hasLower_iff (h : List String) (l : String) :
    hasLower h l = true ↔ ∃ c ∈ h, lowerStr c = l := by
  simp [hasLower]

/-- The wide detection condition, spelled out. -/
theorem wideCondB_iff (h : List String) :
    wideCondB h = true ↔
      ((∃ c ∈ h, lowerStr c = "time") ∧
        ¬((∃ c ∈ h, lowerStr c = "group") ∧ (∃ c ∈ h, lowerStr c = "replicate") ∧
          (∃ c ∈ h, lowerStr c = "value"))) := by
  rw [wideCondB, ← hasLower_iff h "time", ← hasLower_iff h "group",
    ← hasLower_iff h "replicate", ← hasLower_iff h "value"]
  cases hasLower h "time" <;> cases hasLower h "group" <;>
    cases hasLower h "replicate" <;> cases hasLower h "value" <;> simp

/-- The tidy detection condition, spelled out. -/
theorem tidyCondB_iff (h : List String) :
    tidyCondB h = true ↔
      ((∃ c ∈ h, lowerStr c = "time") ∧ (∃ c ∈ h, lowerStr c = "group") ∧
        (∃ c ∈ h, lowerStr c = "value")) := by
  rw [tidyCondB, ← hasLower_iff h "time", ← hasLower_iff h "group",
    ← hasLower_iff h "value"]
  cases hasLower h "time" <;> cases hasLower h "group" <;>
    cases hasLower h "value" <;> simp

/-- Mapping over the zip of a list with a map of itself. -/
theorem zip_map_self {α β γ : Type} (l : List α) (f : α → β) (g : α × β → γ) :
    (l.zip (l.map f)).map g = l.map (fun x => g (x, f x)) := by
  induction l with
  | nil => rfl
  | cons a l ih => simp [List.zip_cons_cons, ih]

/-- The stats component of the aggregator, uniformly over the interval
setting: it aggregates the records keyed by group and bucketed time. -/
theorem aggregate_snd (df : WorkTable) (iv : Option ℚ) :
    (aggregate_mean_sd df iv).2 =
      aggCore df.base.records (df.base.records.map (fun r => bucketOf iv r.time)) := by
  cases iv with
  | none => rfl
  | some h =>
    by_cases hp : 0 < h
    · simp only [aggregate_mean_sd, if_pos hp, Option.getD_some, timeBinCol, bucketOf]
    · simp only [aggregate_mean_sd, if_neg hp, bucketOf]

/-- The aggregation core, rewritten over the per-record key function. -/
theorem aggCore_eq (records : List TidyRecord) (f : TidyRecord → ℚ) :
    aggCore records (records.map f) =
      (dedupFirst (records.map (fun x => (x.group, f x)))).map
        (statsOfKeyed (records.map (fun x => ((x.group, f x), x.value)))) := by
  have hkeyed : ((records.zip (records.map f)).map (fun p => ((p.1.group, p.2), p.1.value)))
      = records.map (fun x => ((x.group, f x), x.value)) :=
    zip_map_self records f (fun p => ((p.1.group, p.2), p.1.value))
  show (dedupFirst ((((records.zip (records.map f)).map
      (fun p => ((p.1.group, p.2), p.1.value))).map (fun p => p.1)))).map
      (statsOfKeyed ((records.zip (records.map f)).map
        (fun p => ((p.1.group, p.2), p.1.value)))) = _
  rw [hkeyed, List.map_map]
  rfl

/-- The group and time fields of an aggregated row reproduce its key. -/
theorem statsOfKeyed_key (keyed : List ((String × ℚ) × ℚ)) (k : String × ℚ) :
    ((statsOfKeyed keyed k).group, (statsOfKeyed keyed k).time) = k := by
  simp [statsOfKeyed]

/-- The keys of the aggregated table are the distinct record keys in
order of first appearance. -/
theorem aggCore_map_key (records : List TidyRecord) (f : TidyRecord → ℚ) :
    (aggCore records (records.map f)).map (fun r => (r.group, r.time)) =
      dedupFirst (records.map (fun x => (x.group, f x))) := by
  rw [aggCore_eq, List.map_map]
  have h2 : ∀ k ∈ dedupFirst (records.map (fun x => (x.group, f x))),
      ((fun r : StatsRecord => (r.group, r.time)) ∘
        statsOfKeyed (records.map (fun x => ((x.group, f x), x.value)))) k = k :=
    fun k _ => statsOfKeyed_key (records.map (fun x => ((x.group, f x), x.value))) k
  rw [List.map_congr_left h2]
  exact List.map_id _

/-- The values selected for a key out of the keyed list are the value
fields of the records with that key. -/
theorem keyedVals_eq (records : List TidyRecord) (f : TidyRecord → ℚ) (k : String × ℚ) :
    keyedVals (records.map (fun x => ((x.group, f x), x.value))) k =
      (records.filter (fun x => decide ((x.group, f x) = k))).map TidyRecord.value := by
  unfold keyedVals
  rw [List.filter_map, List.map_map]
  rfl

set_option maxRecDepth 8000 in
/-- Claim C1: for every raw table, format classification proceeds exactly
as: if a column case-insensitively named time exists and the triple
group, replicate, value is not fully present, the table is normalized as
WIDE; else if time, group, value are all present, it is normalized as
TIDY; else normalization fails with the format-detection error, whose
text names both accepted layouts, and no table is produced. -/
theorem C1_format_detection (tbl : RawTable) :
    (((∃ c ∈ tbl.header, lowerStr c = "time") ∧
        ¬((∃ c ∈ tbl.header, lowerStr c = "group") ∧
          (∃ c ∈ tbl.header, lowerStr c = "replicate") ∧
          (∃ c ∈ tbl.header, lowerStr c = "value"))) →
      read_incucyte_csv tbl = Except.ok (wideNormalize tbl)) ∧
    ((¬((∃ c ∈ tbl.header, lowerStr c = "time") ∧
        ¬((∃ c ∈ tbl.header, lowerStr c = "group") ∧
          (∃ c ∈ tbl.header, lowerStr c = "replicate") ∧
          (∃ c ∈ tbl.header, lowerStr c = "value"))) ∧
      ((∃ c ∈ tbl.header, lowerStr c = "time") ∧
        (∃ c ∈ tbl.header, lowerStr c = "group") ∧
        (∃ c ∈ tbl.header, lowerStr c = "value"))) →
      read_incucyte_csv tbl = Except.ok (tidyNormalize tbl)) ∧
    ((¬((∃ c ∈ tbl.header, lowerStr c = "time") ∧
        ¬((∃ c ∈ tbl.header, lowerStr c = "group") ∧
          (∃ c ∈ tbl.header, lowerStr c = "replicate") ∧
          (∃ c ∈ tbl.header, lowerStr c = "value"))) ∧
      ¬((∃ c ∈ tbl.header, lowerStr c = "time") ∧
        (∃ c ∈ tbl.header, lowerStr c = "group") ∧
        (∃ c ∈ tbl.header, lowerStr c = "value"))) →
      read_incucyte_csv tbl = Except.error formatErrorMsg) ∧
    "Wide".data <:+: formatErrorMsg.data ∧ "Tidy".data <:+: formatErrorMsg.data := by
  refine ⟨?_, ?_, ?_, by unfold formatErrorMsg; decide, by unfold formatErrorMsg; decide⟩
  · intro hw
    rw [read_incucyte_csv, if_pos ((wideCondB_iff tbl.header).2 hw)]
  · rintro ⟨hnw, ht⟩
    have hw : ¬wideCondB tbl.header = true := fun hh => hnw ((wideCondB_iff _).1 hh)
    rw [read_incucyte_csv, if_neg hw, if_pos ((tidyCondB_iff _).2 ht)]
  · rintro ⟨hnw, hnt⟩
    have hw : ¬wideCondB tbl.header = true := fun hh => hnw ((wideCondB_iff _).1 hh)
    have ht : ¬tidyCondB tbl.header = true := fun hh => hnt ((tidyCondB_iff _).1 hh)
    rw [read_incucyte_csv, if_neg hw, if_neg ht]

/-- Concrete instantiations of the three branches of C1. -/
theorem C1_format_detection_witness :
    read_incucyte_csv ⟨["Time", "A"], []⟩ =
      Except.ok (wideNormalize ⟨["Time", "A"], []⟩) ∧
    read_incucyte_csv ⟨["time", "group", "replicate", "value"], []⟩ =
      Except.ok (tidyNormalize ⟨["time", "group", "replicate", "value"], []⟩) ∧
    read_incucyte_csv ⟨["foo", "bar"], []⟩ = Except.error formatErrorMsg :=
  ⟨(C1_format_detection ⟨["Time", "A"], []⟩).1 (by decide),
   (C1_format_detection ⟨["time", "group", "replicate", "value"], []⟩).2.1 (by decide),
   (C1_format_detection ⟨["foo", "bar"], []⟩).2.2.1 (by decide)⟩

/-- Claim C2, evaluated on the code: a raw table with columns time, group
and value but no replicate column is routed to the WIDE branch, because
the detection test requires the full triple group, replicate, value to
rule WIDE out; the group and value columns are then treated as series
columns.  The second equation shows what the tidy path, which the claim
asserts is taken, would have produced instead. -/
theorem C2_tidy_without_replicate_goes_wide :
    read_incucyte_csv ⟨["time", "group", "value"], [[some "0", some "A", some "1"]]⟩ =
      Except.ok ⟨[⟨0, "value", "R1", 1⟩], some ["group", "value"]⟩ ∧
    tidyNormalize ⟨["time", "group", "value"], [[some "0", some "A", some "1"]]⟩ =
      ⟨[⟨0, "A", "R1", 1⟩], none⟩ :=
  ⟨by with_unfolding_all rfl, by with_unfolding_all rfl⟩

/-- Claim C3: time coercion is all-or-nothing.  If every value of the
column parses directly the parsed column is returned; otherwise every
value, including the directly parseable ones, goes through extraction of
the first decimal-number substring of its string form, unmatched values
becoming missing.  The concrete columns of the specification behave as
stated, and a signed value shows that extraction really is applied to
directly-parseable entries on the fallback path. -/
theorem C3_time_coercion_all_or_nothing :
    (∀ col : List Cell,
        (col.all fun c => (toNumericCell c).isSome) = true →
        coerce_time col = col.map toNumericCell) ∧
    (∀ col : List Cell,
        (col.all fun c => (toNumericCell c).isSome) = false →
        coerce_time col = col.map fun x =>
          match extractFirst (cellStr x).data with
          | some f => parseNum f
          | none => none) ∧
    coerce_time [some "1", some "2", some "x"] = [some 1, some 2, none] ∧
    coerce_time [some "12h", some "7.5 hrs", some "bad"] =
      [some 12, some (15 / 2 : ℚ), none] ∧
    coerce_time [some "-3", some "x"] = [some 3, none] := by
  refine ⟨?_, ?_, by with_unfolding_all decide, by with_unfolding_all decide,
    by with_unfolding_all decide⟩
  · intro col h
    have hc : ((col.map toNumericCell).all Option.isSome) = true := by
      rw [all_map_comp]; exact h
    show (if (col.map toNumericCell).all Option.isSome then col.map toNumericCell
          else col.map fun x =>
            match extractFirst (cellStr x).data with
            | some f => parseNum f
            | none => none) = col.map toNumericCell
    rw [if_pos hc]
  · intro col h
    have hc : ((col.map toNumericCell).all Option.isSome) = false := by
      rw [all_map_comp]; exact h
    show (if (col.map toNumericCell).all Option.isSome then col.map toNumericCell
          else col.map fun x =>
            match extractFirst (cellStr x).data with
            | some f => parseNum f
            | none => none) = _
    rw [if_neg (by simp [hc])]

/-- Concrete instantiations of the two branches of C3. -/
theorem C3_time_coercion_all_or_nothing_witness :
    coerce_time [some "5", some "6"] = [some 5, some 6] ∧
    coerce_time [some "-3", some "bad"] = [some 3, none] := by
  constructor
  · rw [C3_time_coercion_all_or_nothing.1 [some "5", some "6"]
      (by with_unfolding_all decide)]
    with_unfolding_all decide
  · rw [C3_time_coercion_all_or_nothing.2.1 [some "-3", some "bad"]
      (by with_unfolding_all decide)]
    with_unfolding_all decide

/-- Claim C4: the replicate suffix resolver splits exactly the
identifiers that end in an underscore followed by R, Rep or rep (case
sensitive) and one or more digits, returning everything before the suffix
as base and the suffix as tag; any other identifier is returned unchanged
with no tag.  The three examples of the specification are included. -/
theorem C4_replicate_suffix_resolver :
    (∀ t : List Char, isRepTag t = true ↔
        ∃ ds : List Char, ds ≠ [] ∧ ds.all Char.isDigit = true ∧
          (t = 'R' :: ds ∨ t = 'R' :: 'e' :: 'p' :: ds ∨ t = 'r' :: 'e' :: 'p' :: ds)) ∧
    (∀ cs : List Char, (splitRep cs).isSome = true ↔
        ∃ b t : List Char, cs = b ++ '_' :: t ∧ isRepTag t = true) ∧
    (∀ cs b t : List Char, splitRep cs = some (b, t) →
        cs = b ++ '_' :: t ∧ isRepTag t = true) ∧
    resolveReplicate "DrugA_R1" = ("DrugA", some "R1") ∧
    resolveReplicate "DrugA_Rep12" = ("DrugA", some "Rep12") ∧
    resolveReplicate "ControlGroup" = ("ControlGroup", none) := by
  refine ⟨isRepTag_iff, ?_, splitRep_eq_some, by decide, by decide, by decide⟩
  intro cs
  constructor
  · intro hs
    obtain ⟨p, hp⟩ := Option.isSome_iff_exists.1 hs
    obtain ⟨b, t⟩ := p
    obtain ⟨h1, h2⟩ := splitRep_eq_some cs b t hp
    exact ⟨b, t, h1, h2⟩
  · rintro ⟨b, t, rfl, ht⟩
    exact splitRep_append_isSome b t ht

/-- Concrete instantiation of the splitting direction of C4. -/
theorem C4_replicate_suffix_resolver_witness :
    "DrugA_R1".data = "DrugA".data ++ '_' :: "R1".data ∧ isRepTag "R1".data = true :=
  C4_replicate_suffix_resolver.2.2.1 "DrugA_R1".data "DrugA".data "R1".data (by decide)

/-- Claim C5: in WIDE normalization the replicate-suffix decision is made
per original column-name string, not per base: every record of the wide
output draws its group and replicate from its own series column name,
taking base and tag when that name matches the suffix pattern and the
full column name with the sentinel R1 otherwise.  The concrete table with
columns A_R1 and A shows both records landing in group A, with replicate
R1 from the tag and R1 from the sentinel respectively. -/
theorem C5_wide_per_column_resolution :
    (∀ (tbl : RawTable) (rec : TidyRecord), rec ∈ (wideNormalize tbl).records →
        ∃ c, c ∈ wideValueCols tbl ∧
          ((∃ b t, splitRep c.data = some (b, t) ∧
              rec.group = String.mk b ∧ rec.replicate = String.mk t) ∨
            (splitRep c.data = none ∧ rec.group = c ∧ rec.replicate = "R1"))) ∧
    read_incucyte_csv ⟨["Time", "A_R1", "A"], [[some "0", some "1", some "2"]]⟩ =
      Except.ok ⟨[⟨0, "A", "R1", 1⟩, ⟨0, "A", "R1", 2⟩], some ["A"]⟩ := by
  constructor
  · intro tbl rec hrec
    obtain ⟨p, hp, hres⟩ := List.mem_filterMap.1 hrec
    obtain ⟨t?, e⟩ := p
    have he : e ∈ wideEntries tbl := (List.of_mem_zip hp).2
    obtain ⟨q, hq, hqe⟩ := List.mem_map.1 he
    simp only [meltWide] at hq
    obtain ⟨c, hc, hcq⟩ := List.mem_flatMap.1 hq
    obtain ⟨r, hr, rfl⟩ := List.mem_map.1 hcq
    refine ⟨c, hc, ?_⟩
    cases hs : splitRep c.data with
    | some p2 =>
      obtain ⟨b, t⟩ := p2
      have he2 : e = (r.getD (idxOfName tbl.header (wideTimeCol tbl)) none,
          String.mk b, String.mk t, r.getD (idxOfName tbl.header c) none) := by
        rw [← hqe]; simp [wideGR, hs]
      subst he2
      cases t? with
      | none => exact absurd hres (by simp [wideResolve])
      | some tv =>
        simp only [wideResolve] at hres
        cases hv : toNumericCell (r.getD (idxOfName tbl.header c) none) with
        | none => rw [hv] at hres; exact absurd hres (by simp)
        | some v =>
          rw [hv] at hres
          simp only [Option.some.injEq] at hres
          subst hres
          exact Or.inl ⟨b, t, rfl, rfl, rfl⟩
    | none =>
      have he2 : e = (r.getD (idxOfName tbl.header (wideTimeCol tbl)) none,
          c, "R1", r.getD (idxOfName tbl.header c) none) := by
        rw [← hqe]; simp [wideGR, hs]
      subst he2
      cases t? with
      | none => exact absurd hres (by simp [wideResolve])
      | some tv =>
        simp only [wideResolve] at hres
        cases hv : toNumericCell (r.getD (idxOfName tbl.header c) none) with
        | none => rw [hv] at hres; exact absurd hres (by simp)
        | some v =>
          rw [hv] at hres
          simp only [Option.some.injEq] at hres
          subst hres
          exact Or.inr ⟨rfl, rfl, rfl⟩
  · with_unfolding_all rfl

/-- Concrete instantiation of the per-record direction of C5: the first
record of the output of the table with columns A_R1 and A is traced back
to one of its series columns. -/
theorem C5_wide_per_column_resolution_witness :
    ∃ c, c ∈ wideValueCols ⟨["Time", "A_R1", "A"], [[some "0", some "1", some "2"]]⟩ ∧
      ((∃ b t, splitRep c.data = some (b, t) ∧
          (⟨0, "A", "R1", 1⟩ : TidyRecord).group = String.mk b ∧
          (⟨0, "A", "R1", 1⟩ : TidyRecord).replicate = String.mk t) ∨
        (splitRep c.data = none ∧ (⟨0, "A", "R1", 1⟩ : TidyRecord).group = c ∧
          (⟨0, "A", "R1", 1⟩ : TidyRecord).replicate = "R1")) :=
  C5_wide_per_column_resolution.1 ⟨["Time", "A_R1", "A"], [[some "0", some "1", some "2"]]⟩
    ⟨0, "A", "R1", 1⟩ (by with_unfolding_all decide)

/-- Claim C6 fails on the tidy path: in this table the first source row
carries group B but is dropped by time coercion, so the group order of
the output records is A before B while the first-appearance order in the
source rows is B before A. -/
theorem C6_group_order_counterexample :
    read_incucyte_csv ⟨["time", "group", "replicate", "value"],
        [[some "x", some "B", some "R1", some "1"],
         [some "1", some "A", some "R1", some "2"],
         [some "1", some "B", some "R1", some "3"]]⟩ =
      Except.ok ⟨[⟨1, "A", "R1", 2⟩, ⟨1, "B", "R1", 3⟩], none⟩ ∧
    dedupFirst ((⟨[⟨1, "A", "R1", 2⟩, ⟨1, "B", "R1", 3⟩], none⟩ : TidyTable).records.map
        TidyRecord.group) = ["A", "B"] ∧
    dedupFirst ((⟨["time", "group", "replicate", "value"],
        [[some "x", some "B", some "R1", some "1"],
         [some "1", some "A", some "R1", some "2"],
         [some "1", some "B", some "R1", some "3"]]⟩ : RawTable).rows.map
      (fun r => cellStr (r.getD 1 none))) = ["B", "A"] ∧
    (["A", "B"] : List String) ≠ ["B", "A"] := by
  refine ⟨by with_unfolding_all rfl, by decide, by decide, by decide⟩

/-- Claim C6 as amended: in the wide path the ordered categories of the
group column are the base names of the series columns in header order
with duplicates collapsed; in the tidy path the first-appearance group
order of the output records is the first-appearance order of the group
cells of the rows that survive coercion (a dropped row contributes
nothing to the order). -/
theorem C6_group_order_amended :
    (∀ tbl : RawTable,
        (wideNormalize tbl).groupCats =
          some (dedupFirst ((tbl.header.filter
            (fun c => decide (c ≠ (lowerLookup tbl.header "time").getD ""))).map
            base_group_name))) ∧
    (∀ tbl : RawTable,
        dedupFirst ((tidyNormalize tbl).records.map TidyRecord.group) =
          dedupFirst ((((tidyCoerced tbl).zip tbl.rows).filter
              (fun p => p.1.isSome &&
                (toNumericCell (p.2.getD (tidyValueIdx tbl) none)).isSome)).map
            (fun p => cellStr (p.2.getD (tidyGroupIdx tbl) none)))) := by
  constructor
  · intro tbl
    rfl
  · intro tbl
    exact congrArg dedupFirst (tidy_group_map (tidyGroupIdx tbl) (tidyRepIdx tbl)
      (tidyValueIdx tbl) (hasLower tbl.header "replicate") ((tidyCoerced tbl).zip tbl.rows))

/-- Claim C7 fails as stated: pandas to_numeric resolves the word inf
to a non-missing infinite float, so this successfully normalized table
keeps a record whose value is not finite; nothing is dropped and no
error is raised. -/
theorem C7_finiteness_counterexample :
    read_incucyte_csvX ⟨["time", "group", "replicate", "value"],
        [[some "1", some "A", some "R1", some "inf"]]⟩ =
      Except.ok [⟨XNum.fin 1, "A", "R1", XNum.pinf⟩] ∧
    (⟨XNum.fin 1, "A", "R1", XNum.pinf⟩ : XTidyRecord).value.isFinite = false := by
  refine ⟨by with_unfolding_all rfl, by decide⟩

set_option maxRecDepth 4000 in
/-- Claim C7 as amended: a raw table that satisfies either detection
condition is normalized without error, whatever its cell contents; on
both paths the output keeps exactly one record per source entry whose
coerced time and parsed value both resolved to a non-missing number,
all other entries being dropped silently — but a resolved number may be
non-finite, because the infinity words and overflowing literals parse
to kept infinities.  The concrete tidy table shows a row with an
unparseable value dropped while the remaining rows are kept and no
error is raised; the last two equations show an overflowing literal and
a signed infinity word resolving to infinities rather than failing. -/
theorem C7_drop_policy_amended :
    (∀ tbl : RawTable,
        wideCondB tbl.header = true ∨ tidyCondB tbl.header = true →
        ∃ rs, read_incucyte_csvX tbl = Except.ok rs) ∧
    (∀ tbl : RawTable,
        (tidyNormalizeX tbl).length =
          ((tidyCoercedX tbl).zip tbl.rows).countP
            (fun p => p.1.isSome &&
              (toNumericCellX (p.2.getD (tidyValueIdx tbl) none)).isSome)) ∧
    (∀ tbl : RawTable,
        (wideNormalizeX tbl).length =
          ((wideCoercedX tbl).zip (wideEntries tbl)).countP
            (fun p => p.1.isSome && (toNumericCellX p.2.2.2.2).isSome)) ∧
    read_incucyte_csvX ⟨["time", "group", "replicate", "value"],
        [[some "0", some "A", some "R1", some "1"],
         [some "1", some "A", some "R1", some "oops"],
         [some "2", some "A", some "R1", some "3"]]⟩ =
      Except.ok [⟨XNum.fin 0, "A", "R1", XNum.fin 1⟩,
        ⟨XNum.fin 2, "A", "R1", XNum.fin 3⟩] ∧
    toNumericCellX (some "1e309") = some XNum.pinf ∧
    toNumericCellX (some "-Infinity") = some XNum.ninf := by
  refine ⟨?_, ?_, ?_, by with_unfolding_all rfl, by with_unfolding_all decide,
    by with_unfolding_all decide⟩
  · intro tbl h
    by_cases hw : wideCondB tbl.header = true
    · exact ⟨wideNormalizeX tbl, by rw [read_incucyte_csvX, if_pos hw]⟩
    · rcases h with h | h
      · exact absurd h hw
      · exact ⟨tidyNormalizeX tbl, by rw [read_incucyte_csvX, if_neg hw, if_pos h]⟩
  · intro tbl
    have h1 : (tidyNormalizeX tbl).length =
        ((tidyCoercedX tbl).zip tbl.rows).countP
          (fun p => (tidyResolveX (tidyGroupIdx tbl) (tidyRepIdx tbl) (tidyValueIdx tbl)
            (hasLower tbl.header "replicate") p).isSome) :=
      length_filterMap_count _ _
    rw [h1]
    congr 1
    funext p
    exact tidyResolveX_isSome _ _ _ _ p
  · intro tbl
    have h1 : (wideNormalizeX tbl).length =
        ((wideCoercedX tbl).zip (wideEntries tbl)).countP
          (fun p => (wideResolveX p).isSome) :=
      length_filterMap_count _ _
    rw [h1]
    congr 1
    funext p
    exact wideResolveX_isSome p

/-- Concrete instantiation of the no-error branch of the amended C7. -/
theorem C7_drop_policy_amended_witness :
    ∃ rs, read_incucyte_csvX ⟨["Time", "A"], [[some "0", some "z"]]⟩ = Except.ok rs :=
  C7_drop_policy_amended.1 ⟨["Time", "A"], [[some "0", some "z"]]⟩ (Or.inl (by decide))

/-- The stats component of the aggregator in closed form: one stats row
per distinct key in first-appearance order, computed by statsOfKeyed over
the keyed record list. -/
theorem aggregate_snd_eq (df : WorkTable) (iv : Option ℚ) :
    (aggregate_mean_sd df iv).2 =
      (dedupFirst (df.base.records.map (fun x => (x.group, bucketOf iv x.time)))).map
        (statsOfKeyed (df.base.records.map
          (fun x => ((x.group, bucketOf iv x.time), x.value)))) := by
  rw [aggregate_snd, aggCore_eq]

/-- The keys of the aggregated stats are the distinct record keys in
order of first appearance. -/
theorem aggregate_map_key (df : WorkTable) (iv : Option ℚ) :
    (aggregate_mean_sd df iv).2.map (fun r => (r.group, r.time)) =
      dedupFirst (df.base.records.map (fun x => (x.group, bucketOf iv x.time))) := by
  rw [aggregate_snd, aggCore_map_key]

/-- Claim C8: the aggregator produces exactly one stats record per
distinct grouping key; its count n is the number of contributing records
and is at least one, its mean is the arithmetic mean of the contributing
values, and its sample variance (whose square root is the reported sd) is
null exactly when n is one and is the sum of squared deviations over n
minus one otherwise.  The two concrete tables of the specification are
included: values one and three at one time give mean two, variance two
(sd the square root of two) and n two; a single record gives n one and a
null sd. -/
theorem C8_aggregator_mean_sd_n :
    (∀ (df : WorkTable) (iv : Option ℚ) (r : StatsRecord),
        r ∈ (aggregate_mean_sd df iv).2 →
        1 ≤ r.n ∧
        r.n = (groupValues df.base.records iv (r.group, r.time)).length ∧
        r.mean = (groupValues df.base.records iv (r.group, r.time)).sum / (r.n : ℚ) ∧
        (r.sampleVar = none ↔ r.n = 1) ∧
        (1 < r.n → r.sampleVar = some
          (((groupValues df.base.records iv (r.group, r.time)).map
            (fun v => (v - r.mean) ^ 2)).sum / ((r.n : ℚ) - 1)))) ∧
    (∀ (df : WorkTable) (iv : Option ℚ),
        ((aggregate_mean_sd df iv).2.map (fun r => (r.group, r.time))).Nodup) ∧
    (∀ (df : WorkTable) (iv : Option ℚ) (k : String × ℚ),
        k ∈ (aggregate_mean_sd df iv).2.map (fun r => (r.group, r.time)) ↔
        k ∈ df.base.records.map (fun x => (x.group, bucketOf iv x.time))) ∧
    (aggregate_mean_sd ⟨⟨[⟨0, "A", "R1", 1⟩, ⟨0, "A", "R2", 3⟩], none⟩, none⟩ none).2 =
      [⟨"A", 0, 2, some 2, 2⟩] ∧
    (aggregate_mean_sd ⟨⟨[⟨0, "A", "R1", 1⟩], none⟩, none⟩ none).2 =
      [⟨"A", 0, 1, none, 1⟩] := by
  refine ⟨?_, ?_, ?_, by with_unfolding_all decide, by with_unfolding_all decide⟩
  · intro df iv r hr
    rw [aggregate_snd_eq] at hr
    obtain ⟨k, hk, hkr⟩ := List.mem_map.1 hr
    subst hkr
    set kl := df.base.records.map (fun x => ((x.group, bucketOf iv x.time), x.value)) with hkl
    have hvals : keyedVals kl k = groupValues df.base.records iv k := by
      rw [hkl]
      exact keyedVals_eq df.base.records (fun x => bucketOf iv x.time) k
    have hn : (statsOfKeyed kl k).n = (groupValues df.base.records iv k).length := by
      rw [show (statsOfKeyed kl k).n = (keyedVals kl k).length from rfl, hvals]
    have hmean : (statsOfKeyed kl k).mean =
        (groupValues df.base.records iv k).sum /
          ((groupValues df.base.records iv k).length : ℚ) := by
      rw [show (statsOfKeyed kl k).mean =
        (keyedVals kl k).sum / ((keyedVals kl k).length : ℚ) from rfl, hvals]
    have hvar : (statsOfKeyed kl k).sampleVar =
        (if (groupValues df.base.records iv k).length ≤ 1 then none
         else some (((groupValues df.base.records iv k).map
             (fun v => (v - (groupValues df.base.records iv k).sum /
               ((groupValues df.base.records iv k).length : ℚ)) ^ 2)).sum /
           (((groupValues df.base.records iv k).length : ℚ) - 1))) := by
      rw [show (statsOfKeyed kl k).sampleVar =
        (if (keyedVals kl k).length ≤ 1 then none
         else some (((keyedVals kl k).map
             (fun v => (v - (keyedVals kl k).sum /
               ((keyedVals kl k).length : ℚ)) ^ 2)).sum /
           (((keyedVals kl k).length : ℚ) - 1))) from rfl, hvals]
    have hkey := statsOfKeyed_key kl k
    have hkmem : k ∈ df.base.records.map (fun x => (x.group, bucketOf iv x.time)) :=
      (mem_dedupFirst _ _).1 hk
    obtain ⟨x, hx, hxk⟩ := List.mem_map.1 hkmem
    have hxf : x ∈ df.base.records.filter
        (fun y => decide ((y.group, bucketOf iv y.time) = k)) :=
      List.mem_filter.2 ⟨hx, by simp [hxk]⟩
    have hlen : 1 ≤ (groupValues df.base.records iv k).length := by
      have hv : x.value ∈ groupValues df.base.records iv k :=
        List.mem_map_of_mem _ hxf
      exact List.length_pos.2 (List.ne_nil_of_mem hv)
    refine ⟨?_, ?_, ?_, ?_, ?_⟩
    · rw [hn]; exact hlen
    · rw [hkey, hn]
    · rw [hkey, hmean, hn]
    · rw [hvar]
      constructor
      · intro hnone
        rw [hn]
        by_cases hc : (groupValues df.base.records iv k).length ≤ 1
        · omega
        · rw [if_neg hc] at hnone
          exact absurd hnone (by simp)
      · intro h1
        rw [hn] at h1
        rw [if_pos (by omega)]
    · intro h2
      rw [hn] at h2
      rw [hkey, hvar, hmean, hn, if_neg (by omega)]
  · intro df iv
    rw [aggregate_map_key]
    exact nodup_dedupFirst _
  · intro df iv k
    rw [aggregate_map_key]
    exact mem_dedupFirst _ k

/-- Concrete instantiation of the per-record branch of C8. -/
theorem C8_aggregator_mean_sd_n_witness :
    1 ≤ (⟨"A", 0, 2, some 2, 2⟩ : StatsRecord).n :=
  (C8_aggregator_mean_sd_n.1 ⟨⟨[⟨0, "A", "R1", 1⟩, ⟨0, "A", "R2", 3⟩], none⟩, none⟩ none
    ⟨"A", 0, 2, some 2, 2⟩ (by with_unfolding_all decide)).1

/-- Claim C9: with a positive interval the aggregator keys records by
group and the floor bucket of their time over the interval; with the
interval absent or zero it keys by group and raw time.  An interval of
four sends times 5.9 and 7.99 to bucket 4 and time 8 to bucket 8 in the
concrete table. -/
theorem C9_time_binning :
    (∀ (df : WorkTable) (h : ℚ), 0 < h →
        (aggregate_mean_sd df (some h)).2.map (fun r => (r.group, r.time)) =
          dedupFirst (df.base.records.map
            (fun x => (x.group, (⌊x.time / h⌋ : ℚ) * h)))) ∧
    (∀ df : WorkTable,
        (aggregate_mean_sd df none).2.map (fun r => (r.group, r.time)) =
          dedupFirst (df.base.records.map (fun x => (x.group, x.time)))) ∧
    (∀ df : WorkTable,
        (aggregate_mean_sd df (some 0)).2 = (aggregate_mean_sd df none).2) ∧
    (aggregate_mean_sd ⟨⟨[⟨59 / 10, "A", "R1", 1⟩, ⟨799 / 100, "A", "R1", 2⟩,
        ⟨8, "A", "R1", 3⟩], none⟩, none⟩ (some 4)).2 =
      [⟨"A", 4, 3 / 2, some (1 / 2), 2⟩, ⟨"A", 8, 3, none, 1⟩] := by
  refine ⟨?_, ?_, ?_, by with_unfolding_all decide⟩
  · intro df h hp
    rw [aggregate_map_key]
    simp only [bucketOf, hp, if_true]
  · intro df
    rw [aggregate_map_key]
    simp only [bucketOf]
  · intro df
    simp only [aggregate_mean_sd]
    rw [if_neg (lt_irrefl (0 : ℚ))]

/-- Concrete instantiation of the positive-interval branch of C9. -/
theorem C9_time_binning_witness :
    (aggregate_mean_sd ⟨⟨[⟨5, "A", "R1", 1⟩], none⟩, none⟩ (some 4)).2.map
        (fun r => (r.group, r.time)) =
      dedupFirst (([⟨5, "A", "R1", 1⟩] : List TidyRecord).map
        (fun x => (x.group, (⌊x.time / 4⌋ : ℚ) * 4))) :=
  C9_time_binning.1 ⟨⟨[⟨5, "A", "R1", 1⟩], none⟩, none⟩ 4 (by norm_num)

/-- Claim C10: the aggregator is effect-free on its input.  The first
component of the embedded result is the input frame as the caller sees it
after the call: it is the unmodified input, every record of it included,
for every interval setting; the mutation that introduces the time_bin
column happens only on the internal copy. -/
theorem C10_aggregator_pure :
    ∀ (df : WorkTable) (iv : Option ℚ),
      (aggregate_mean_sd df iv).1 = df ∧
      ∀ i : ℕ, (aggregate_mean_sd df iv).1.base.records.get? i =
        df.base.records.get? i := by
  intro df iv
  have h1 : (aggregate_mean_sd df iv).1 = df := by
    cases iv with
    | none => rfl
    | some h =>
      by_cases hp : 0 < h
      · simp only [aggregate_mean_sd]
        rw [if_pos hp]
      · simp only [aggregate_mean_sd]
        rw [if_neg hp]
  exact ⟨h1, fun i => by rw [h1]⟩

end Incucyte
